import Mathlib

/-!
Verification of the pipeline state model of src/src/pages/UrlTool.tsx.

JavaScript strings are embedded as lists of characters (Lean String
literals are converted via String.data), so that the source's index
arithmetic (indexOf, slice, split) can be modelled by structural
recursion.  The flat parameter mapping (URLSearchParams) is embedded as
an ordered association list of (name, value) pairs, JavaScript objects
as association lists, and JavaScript Set as an insertion-ordered
duplicate-free list.
-/

namespace UrlTool

/-- A JavaScript string, as a list of characters. -/
abbrev Str := List Char

/-- The flat key-value parameter mapping (URLSearchParams), in entry order. -/
abbrev Params := List (Str × Str)

/-- JavaScript s.split for a one-character separator: splitComma models
s.split(String.fromCharCode 44).  The empty string yields one empty segment,
as in JavaScript. -/
def splitComma : Str → List Str
  | [] => [[]]
  | c :: cs =>
    if c = ',' then [] :: splitComma cs
    else
      match splitComma cs with
      | [] => [[c]]
      | t :: ts => (c :: t) :: ts

/-- ALL_KEYS from the source: TRANSFORMS.map(t => t.key), registration order. -/
def ALL_KEYS : List Str := ["stripAwsTracking".data, "hostnameReplace".data]

/-- Property names of Object.prototype (ECMA-262, including the Annex B
legacy accessors).  TRANSFORM_MAP is built by Object.fromEntries, so it is a
plain object inheriting these, and the in operator sees them through the
prototype chain. -/
def OBJECT_PROTOTYPE_KEYS : List Str :=
  ["constructor".data, "hasOwnProperty".data, "isPrototypeOf".data,
    "propertyIsEnumerable".data, "toLocaleString".data, "toString".data,
    "valueOf".data, "__proto__".data, "__defineGetter__".data,
    "__defineSetter__".data, "__lookupGetter__".data, "__lookupSetter__".data]

/-- The membership test k in TRANSFORM_MAP from the source.  The JavaScript
in operator consults the whole prototype chain, so besides the registered
transform keys every property name inherited from Object.prototype passes
the test. -/
def isKnown (k : Str) : Bool :=
  decide (k ∈ ALL_KEYS) || decide (k ∈ OBJECT_PROTOTYPE_KEYS)

/-- parseOrder from the source: absent or empty raw (falsy) yields ALL_KEYS;
otherwise split on commas, keep the segments that are known keys, and append
every key of ALL_KEYS not among them.  Duplicate known segments are kept,
exactly as in the source. -/
def parseOrder : Option Str → List Str
  | none => ALL_KEYS
  | some s =>
    if s = [] then ALL_KEYS
    else
      let keys := (splitComma s).filter isKnown
      keys ++ ALL_KEYS.filter (fun k => decide (k ∉ keys))

/-- One insertion into a JavaScript Set modelled as an insertion-ordered
duplicate-free list. -/
def insertUniq (acc : List Str) (x : Str) : List Str :=
  if x ∈ acc then acc else acc ++ [x]

/-- The JavaScript Set constructor applied to a list: deduplicate, keeping
first occurrences in insertion order. -/
def jsSetOf (l : List Str) : List Str := l.foldl insertUniq []

/-- parseActive from the source: absent or empty raw (falsy) yields the empty
set; otherwise split on commas, keep known keys, deduplicate into a set. -/
def parseActive : Option Str → List Str
  | none => []
  | some s =>
    if s = [] then []
    else jsSetOf ((splitComma s).filter isKnown)

/-- Splitting a parameter name at the first dot: models
param.indexOf(dot) together with the two slices in parseConfigs; none
models indexOf returning -1. -/
def splitFirstDot : Str → Option (Str × Str)
  | [] => none
  | c :: cs =>
    if c = '.' then some ([], cs)
    else
      match splitFirstDot cs with
      | none => none
      | some (a, b) => some (c :: a, b)

/-- Lookup in a JavaScript object embedded as an association list (first
match; the lists produced here never hold a key twice). -/
def alGet {α : Type} : List (Str × α) → Str → Option α
  | [], _ => none
  | (k, v) :: rest, n => if k = n then some v else alGet rest n

/-- Overwrite-or-append for a JavaScript object embedded as an association
list: a spread with a computed field keeps an existing field in place with
the new value and appends a new field at the end. -/
def alSet {α : Type} : List (Str × α) → Str → α → List (Str × α)
  | [], n, v => [(n, v)]
  | (k, w) :: rest, n, v =>
    if k = n then (n, v) :: rest else (k, w) :: alSet rest n v

/-- One entry of the parseConfigs loop body from the source: skip names
without a dot, split at the first dot, skip keys failing the in test,
otherwise merge the field into the key's config object.  Property reads and
updates are modelled as entry-list lookups and updates; for the inherited
name __proto__ the real assignment replaces the object's prototype instead
of creating an own property, but reading the same name back yields the
assigned mapping and spreading it accumulates fields, so the lookups the
source performs under a fixed name agree with this model. -/
def configStep (configs : List (Str × List (Str × Str))) (e : Str × Str) :
    List (Str × List (Str × Str)) :=
  match splitFirstDot e.1 with
  | none => configs
  | some (k, f) =>
    if isKnown k then alSet configs k (alSet ((alGet configs k).getD []) f e.2)
    else configs

/-- parseConfigs from the source: fold the loop body over the parameter
entries in order, starting from the empty object. -/
def parseConfigs (ps : Params) : List (Str × List (Str × Str)) :=
  ps.foldl configStep []

/-- The configs[key][field] lookup (configs[key] absent behaves as the empty
object, in which every field is absent). -/
def getCfg (configs : List (Str × List (Str × Str))) (k f : Str) : Option Str :=
  match alGet configs k with
  | none => none
  | some m => alGet m f

/-- URLSearchParams.set: replace the value of the first entry with this name
and drop the later ones; append at the end when the name is absent. -/
def paramsSet : Params → Str → Str → Params
  | [], n, v => [(n, v)]
  | (m, w) :: rest, n, v =>
    if m = n then (n, v) :: rest.filter (fun p => decide (p.1 ≠ n))
    else (m, w) :: paramsSet rest n v

/-- URLSearchParams.delete: remove every entry with this name. -/
def paramsDelete (ps : Params) (n : Str) : Params :=
  ps.filter (fun p => decide (p.1 ≠ n))

/-- Join a list of strings with commas (Array.prototype.join). -/
def joinComma (l : List Str) : Str := List.intercalate [','] l

/-- The toggled active set from toggle in the source: a copy of the selected
set with the key removed when present and appended when absent. -/
def toggleNext (sel : List Str) (k : Str) : List Str :=
  if k ∈ sel then sel.filter (fun x => decide (x ≠ k)) else sel ++ [k]

/-- toggle from the source: write the comma-joined toggled set to the active
parameter when it is non-empty, delete the parameter otherwise. -/
def toggle (sel : List Str) (k : Str) (prev : Params) : Params :=
  let next := toggleNext sel k
  if next = [] then paramsDelete prev "active".data
  else paramsSet prev "active".data (joinComma next)

/-- setConfig from the source: write the key.field parameter when the value
is truthy (non-empty), delete it otherwise. -/
def setConfig (key field value : Str) (prev : Params) : Params :=
  let name := key ++ '.' :: field
  if value = [] then paramsDelete prev name else paramsSet prev name value

/-- Index of the first occurrence of a key (Array.prototype.indexOf, with
none for -1). -/
def idxOf : List Str → Str → Option Nat
  | [], _ => none
  | x :: xs, k => if x = k then some 0 else (idxOf xs k).map (· + 1)

/-- Swap the elements at two positions of a list, as the destructuring swap
in move does. -/
def listSwap (l : List Str) (i j : Nat) : List Str :=
  match l.get? i, l.get? j with
  | some a, some b => (l.set i b).set j a
  | _, _ => l

/-- move from the source: locate the key in the current order, return the
mapping unchanged when the swap target is out of bounds, otherwise swap the
two neighbours and unconditionally write the order parameter.  The source
only invokes move with a key drawn from the order list, so the key is found
there; an absent key is modelled as leaving the mapping unchanged. -/
def move (order : List Str) (key : Str) (dir : Int) (prev : Params) : Params :=
  match idxOf order key with
  | none => prev
  | some idx =>
    let swapWith : Int := (idx : Int) + dir
    if swapWith < 0 ∨ (order.length : Int) ≤ swapWith then prev
    else paramsSet prev "order".data (joinComma (listSwap order idx swapWith.toNat))

/-- Value of a hexadecimal digit, as used by percent-decoding. -/
def hexVal (c : Char) : Option Nat :=
  if '0' ≤ c ∧ c ≤ '9' then some (c.toNat - '0'.toNat)
  else if 'a' ≤ c ∧ c ≤ 'f' then some (c.toNat - 'a'.toNat + 10)
  else if 'A' ≤ c ∧ c ≤ 'F' then some (c.toNat - 'A'.toNat + 10)
  else none

/-- Modelled from the spec: the decodeURIComponent builtin is not part of the
repository; following the spec's words it percent-decodes the segment and
fails (which the source catches) on an invalid escape sequence.  Each decoded
byte is modelled as one character. -/
def percentDecode : Str → Except Unit Str
  | [] => .ok []
  | '%' :: h1 :: h2 :: rest =>
    match hexVal h1, hexVal h2 with
    | some a, some b => (percentDecode rest).map (fun s => Char.ofNat (16 * a + b) :: s)
    | _, _ => .error ()
  | '%' :: _ => .error ()
  | c :: rest => (percentDecode rest).map (fun s => c :: s)

/-- Match of the regular expression /\/L0\/([^/]+)/ at the start of the
string: the literal /L0/ followed by a maximal non-empty run of characters
other than the slash, which is the captured group. -/
def matchL0At (s : Str) : Option Str :=
  match s with
  | '/' :: 'L' :: '0' :: '/' :: rest =>
    let seg := rest.takeWhile (fun c => decide (c ≠ '/'))
    if seg = [] then none else some seg
  | _ => none

/-- url.match(/\/L0\/([^/]+)/): the captured group of the leftmost match,
found by trying every start position from the left. -/
def stripAwsMatch : Str → Option Str
  | [] => none
  | c :: cs =>
    match matchL0At (c :: cs) with
    | some seg => some seg
    | none => stripAwsMatch cs

/-- stripAwsTracking.fn from the source: no match yields null; a failing
percent-decode is caught and yields null; otherwise the decoded segment.
The config parameter is unused, as in the source. -/
def stripAwsTracking_fn (url : Str) (_cfg : List (Str × Str)) : Option Str :=
  match stripAwsMatch url with
  | none => none
  | some seg =>
    match percentDecode seg with
    | .error _ => none
    | .ok s => some s

/-- An absolute URL split into its components. -/
structure URLRec where
  scheme : Str
  host : Str
  port : Str
  path : Str
  query : Option Str
  fragment : Option Str
deriving DecidableEq

/-- Consume the scheme and the :// separator; none models a parse failure of
the URL constructor. -/
def parseScheme : Str → Option (Str × Str)
  | [] => none
  | ':' :: '/' :: '/' :: rest => some ([], rest)
  | ':' :: _ => none
  | c :: cs =>
    if c = '/' ∨ c = '?' ∨ c = '#' then none
    else (parseScheme cs).map (fun p => (c :: p.1, p.2))

/-- Modelled from the spec: the URL builtin is not part of the repository;
following the spec's words this parses an absolute URL into scheme, host,
port, path, query and fragment, and fails (which the source catches) when
there is no scheme or no host. -/
def parseURL (s : Str) : Option URLRec :=
  match parseScheme s with
  | none => none
  | some (sch, rest) =>
    if sch = [] then none
    else
      let auth := rest.takeWhile (fun c => decide (c ≠ '/' ∧ c ≠ '?' ∧ c ≠ '#'))
      let after := rest.drop auth.length
      let host := auth.takeWhile (fun c => decide (c ≠ ':'))
      let port := (auth.drop host.length).drop 1
      if host = [] then none
      else
        let path := after.takeWhile (fun c => decide (c ≠ '?' ∧ c ≠ '#'))
        match after.drop path.length with
        | '?' :: qrest =>
          let q := qrest.takeWhile (fun c => decide (c ≠ '#'))
          match qrest.drop q.length with
          | '#' :: fr => some ⟨sch, host, port, path, some q, some fr⟩
          | _ => some ⟨sch, host, port, path, some q, none⟩
        | '#' :: fr => some ⟨sch, host, port, path, none, some fr⟩
        | _ => some ⟨sch, host, port, path, none, none⟩

/-- Modelled from the spec: re-serialization of a parsed URL, preserving
every component verbatim. -/
def urlToString (u : URLRec) : Str :=
  u.scheme ++ ':' :: '/' :: '/' :: u.host
  ++ (if u.port = [] then [] else ':' :: u.port)
  ++ u.path
  ++ (match u.query with | none => [] | some q => '?' :: q)
  ++ (match u.fragment with | none => [] | some f => '#' :: f)

/-- hostnameReplace.fn from the source: a falsy (absent or empty) config
field to yields null; a URL parse failure is caught and yields null;
otherwise the URL re-serialized with only the hostname replaced. -/
def hostnameReplace_fn (url : Str) (cfg : List (Str × Str)) : Option Str :=
  match alGet cfg "to".data with
  | none => none
  | some t =>
    if t = [] then none
    else
      match parseURL url with
      | none => none
      | some u => some (urlToString { u with host := t })

/-- Dispatch TRANSFORM_MAP[key].fn.  The executor only looks up keys from
the decoded order, which are always known; an unknown key is modelled as a
transform that never applies. -/
def applyTransform (k : Str) (input : Str) (cfg : List (Str × Str)) : Option Str :=
  if k = "stripAwsTracking".data then stripAwsTracking_fn input cfg
  else if k = "hostnameReplace".data then hostnameReplace_fn input cfg
  else none

/-- The decoded pipeline state: input, order, active set and configs. -/
structure PipelineState where
  input : Str
  order : List Str
  active : List Str
  configs : List (Str × List (Str × Str))

/-- One step record of the executor. -/
structure StepResult where
  key : Str
  result : Option Str
  output : Str
deriving DecidableEq

/-- The input the reduce body reads: the output of the last accumulated step
record, or the base input when the accumulator is empty. -/
def lastOut (d : Str) (acc : List StepResult) : Str :=
  match acc.getLast? with
  | some r => r.output
  | none => d

/-- The body of the reduce in the source: read the previous output (the base
input for the first step), apply the transform with the key's config
(defaulting to the empty object), and append the step record. -/
def stepFold (st : PipelineState) (acc : List StepResult) (key : Str) : List StepResult :=
  let input := lastOut st.input acc
  let result := applyTransform key input ((alGet st.configs key).getD [])
  acc ++ [⟨key, result, result.getD input⟩]

/-- transformResults from the source: the order filtered to the active set,
folded with the step body from the empty list. -/
def transformResults (st : PipelineState) : List StepResult :=
  (st.order.filter (fun k => decide (k ∈ st.active))).foldl (stepFold st) []

/-- The final output from the source: the output of the last step record,
or the base input when no step ran. -/
def finalOutput (st : PipelineState) : Str :=
  match (transformResults st).getLast? with
  | some r => r.output
  | none => st.input

/-- Follows the spec's words for the execution fold (section 4.3): process
the active keys left to right, each step applying its transform to the
current value, passing the current value through unchanged when the
transform returns null. -/
def specRun (cfgs : List (Str × List (Str × Str))) : Str → List Str → List StepResult
  | _, [] => []
  | current, k :: ks =>
    let result := applyTransform k current ((alGet cfgs k).getD [])
    let out := match result with | none => current | some s => s
    ⟨k, result, out⟩ :: specRun cfgs out ks

/-- The value a step at position i receives as its input: the base input for
position 0, the previous step's output afterwards. -/
def prevOutput (d : Str) (res : List StepResult) : Nat → Str
  | 0 => d
  | j + 1 =>
    match res.get? j with
    | some r => r.output
    | none => d

example : parseOrder none = ALL_KEYS := rfl
example : parseOrder (some "hostnameReplace".data)
    = ["hostnameReplace".data, "stripAwsTracking".data] := by decide
example : (parseOrder (some "stripAwsTracking,stripAwsTracking".data)).length = 3 := by decide
example : parseActive (some "stripAwsTracking,bogus,stripAwsTracking".data)
    = ["stripAwsTracking".data] := by decide
example : getCfg (parseConfigs [("hostnameReplace.to".data, "x".data)])
    "hostnameReplace".data "to".data = some "x".data := by decide
example : parseConfigs [("foo.bar".data, "baz".data)] = [] := by decide
example : stripAwsTracking_fn "https://ex.com/L0/https%3A%2F%2Fexample.com".data []
    = some "https://example.com".data := by decide
example : stripAwsTracking_fn "/L0/%zz".data [] = none := by decide
example : hostnameReplace_fn "https://bar.com/path?x=1".data [("to".data, "foo.com".data)]
    = some "https://foo.com/path?x=1".data := by decide
example : hostnameReplace_fn "https://bar.com/p".data [("to".data, [])] = none := by decide
example : hostnameReplace_fn "nota url".data [("to".data, "x".data)] = none := by decide
example :
    finalOutput ⟨"https://ex.com/L0/https%3A%2F%2Fexample.com".data, ALL_KEYS,
      ["stripAwsTracking".data, "hostnameReplace".data],
      [("hostnameReplace".data, [("to".data, "foo.com".data)])]⟩
    = "https://foo.com".data := by decide
example :
    finalOutput ⟨"https://ex.com/L0/https%3A%2F%2Fexample.com".data, ALL_KEYS,
      ["stripAwsTracking".data], []⟩ = "https://example.com".data := by decide
example : move ["hostnameReplace".data, "stripAwsTracking".data] "stripAwsTracking".data (-1) []
    = [("order".data, "stripAwsTracking,hostnameReplace".data)] := by decide
example : joinComma ALL_KEYS = "stripAwsTracking,hostnameReplace".data := by decide

theorem alGet_alSet_self {α : Type} (m : List (Str × α)) (k : Str) (v : α) :
    alGet (alSet m k v) k = some v := by
  induction m with
  | nil => simp [alSet, alGet]
  | cons p rest ih =>
    obtain ⟨k₀, w⟩ := p
    by_cases h : k₀ = k
    · subst h; simp [alSet, alGet]
    · simp [alSet, alGet, h, ih]

theorem alGet_alSet_ne {α : Type} (m : List (Str × α)) (k k' : Str) (v : α)
    (h : k' ≠ k) : alGet (alSet m k v) k' = alGet m k' := by
  induction m with
  | nil => simp [alSet, alGet, Ne.symm h]
  | cons p rest ih =>
    obtain ⟨k₀, w⟩ := p
    by_cases h₀ : k₀ = k
    · subst h₀
      simp [alSet, alGet, Ne.symm h]
    · simp [alSet, alGet, h₀, ih]

theorem alGet_paramsSet_self (ps : Params) (n v : Str) :
    alGet (paramsSet ps n v) n = some v := by
  induction ps with
  | nil => simp [paramsSet, alGet]
  | cons p rest ih =>
    obtain ⟨m, w⟩ := p
    by_cases h : m = n
    · subst h; simp [paramsSet, alGet]
    · simp [paramsSet, alGet, h, ih]

theorem alGet_paramsDelete_self (ps : Params) (n : Str) :
    alGet (paramsDelete ps n) n = none := by
  induction ps with
  | nil => simp [paramsDelete, alGet]
  | cons p rest ih =>
    obtain ⟨m, w⟩ := p
    by_cases h : m = n
    · subst h; simpa [paramsDelete, alGet] using ih
    · simpa [paramsDelete, alGet, h] using ih

theorem splitFirstDot_eq_none (n : Str) : splitFirstDot n = none ↔ '.' ∉ n := by
  induction n with
  | nil => simp [splitFirstDot]
  | cons c cs ih =>
    by_cases h : c = '.'
    · subst h; simp [splitFirstDot]
    · rw [List.mem_cons]
      cases hs : splitFirstDot cs with
      | none => simp [splitFirstDot, h, hs, ← ih, Ne.symm h]
      | some p => simp [splitFirstDot, h, hs, ← ih, Ne.symm h]

theorem splitFirstDot_append (k f : Str) (h : '.' ∉ k) :
    splitFirstDot (k ++ '.' :: f) = some (k, f) := by
  induction k with
  | nil => simp [splitFirstDot]
  | cons c cs ih =>
    have hc : ¬ c = '.' := fun hh => h (hh ▸ List.mem_cons_self c cs)
    have hcs : '.' ∉ cs := fun hh => h (List.mem_cons_of_mem c hh)
    simp [splitFirstDot, hc, ih hcs]

theorem mem_foldl_insertUniq (l : List Str) :
    ∀ (acc : List Str) (x : Str), x ∈ l.foldl insertUniq acc ↔ x ∈ acc ∨ x ∈ l := by
  induction l with
  | nil => simp
  | cons y ys ih =>
    intro acc x
    rw [List.foldl_cons, ih]
    unfold insertUniq
    by_cases h : y ∈ acc
    · rw [if_pos h, List.mem_cons]
      constructor
      · rintro (hx | hx)
        · exact Or.inl hx
        · exact Or.inr (Or.inr hx)
      · rintro (hx | rfl | hx)
        · exact Or.inl hx
        · exact Or.inl h
        · exact Or.inr hx
    · rw [if_neg h, List.mem_append, List.mem_singleton, List.mem_cons]
      tauto

theorem nodup_foldl_insertUniq (l : List Str) :
    ∀ acc : List Str, acc.Nodup → (l.foldl insertUniq acc).Nodup := by
  induction l with
  | nil => intro acc h; simpa using h
  | cons y ys ih =>
    intro acc h
    rw [List.foldl_cons]
    apply ih
    unfold insertUniq
    by_cases hy : y ∈ acc
    · rwa [if_pos hy]
    · rw [if_neg hy, List.nodup_append]
      refine ⟨h, List.nodup_singleton y, ?_⟩
      intro a ha hb
      rw [List.mem_singleton] at hb
      exact hy (hb ▸ ha)

theorem parseConfigs_append (ps : Params) (e : Str × Str) :
    parseConfigs (ps ++ [e]) = configStep (parseConfigs ps) e := by
  unfold parseConfigs
  rw [List.foldl_append]
  rfl

theorem parseConfigs_keys_known (ps : Params) :
    ∀ k', (alGet (parseConfigs ps) k').isSome = true → isKnown k' = true := by
  induction ps using List.reverseRecOn with
  | nil => intro k' h; simp [parseConfigs, alGet] at h
  | append_singleton ps e ih =>
    intro k' h
    rw [parseConfigs_append] at h
    unfold configStep at h
    split at h
    · exact ih k' h
    · rename_i k f hsp
      split at h
      · rename_i hk
        by_cases hkk : k' = k
        · exact hkk ▸ hk
        · rw [alGet_alSet_ne _ _ _ _ hkk] at h
          exact ih k' h
      · exact ih k' h

theorem perm_complete (A keys : List Str) (hA : A.Nodup) (hk : keys.Nodup)
    (hsub : ∀ k ∈ keys, k ∈ A) :
    (keys ++ A.filter (fun k => decide (k ∉ keys))).Perm A := by
  have h1 : keys.Perm (A.filter (fun k => decide (k ∈ keys))) := by
    rw [List.perm_ext_iff_of_nodup hk (hA.filter _)]
    intro a
    rw [List.mem_filter]
    constructor
    · intro ha
      exact ⟨hsub a ha, by simpa using ha⟩
    · intro ha
      simpa using ha.2
  have h2 : ((A.filter (fun k => decide (k ∈ keys)))
      ++ A.filter (fun k => !(decide (k ∈ keys)))).Perm A :=
    List.filter_append_perm _ A
  have h3 : (A.filter (fun k => !(decide (k ∈ keys))))
      = A.filter (fun k => decide (k ∉ keys)) := by
    apply List.filter_congr
    intro a _
    simp [decide_not]
  rw [h3] at h2
  exact (h1.append (List.Perm.refl _)).trans h2

theorem getD_eq_match (o : Option Str) (d : Str) :
    o.getD d = match o with | none => d | some s => s := by
  cases o <;> rfl

theorem lastOut_stepFold (st : PipelineState) (acc : List StepResult) (key : Str) :
    lastOut st.input (stepFold st acc key)
      = (applyTransform key (lastOut st.input acc)
          ((alGet st.configs key).getD [])).getD (lastOut st.input acc) := by
  unfold stepFold lastOut
  rw [List.getLast?_concat]

theorem specRun_cons (cfgs : List (Str × List (Str × Str))) (current : Str)
    (k : Str) (ks : List Str) :
    specRun cfgs current (k :: ks)
      = ⟨k, applyTransform k current ((alGet cfgs k).getD []),
          (applyTransform k current ((alGet cfgs k).getD [])).getD current⟩
        :: specRun cfgs
            ((applyTransform k current ((alGet cfgs k).getD [])).getD current) ks := by
  cases h : applyTransform k current ((alGet cfgs k).getD []) with
  | none => simp [specRun, h]
  | some s => simp [specRun, h]

theorem foldl_stepFold_eq (st : PipelineState) (ks : List Str) :
    ∀ acc : List StepResult,
      ks.foldl (stepFold st) acc = acc ++ specRun st.configs (lastOut st.input acc) ks := by
  induction ks with
  | nil => intro acc; simp [specRun]
  | cons k ks ih =>
    intro acc
    rw [List.foldl_cons, ih (stepFold st acc k), lastOut_stepFold, specRun_cons]
    show stepFold st acc k ++ _ = _
    unfold stepFold
    rw [List.append_assoc, List.singleton_append]

theorem specRun_map_key (cfgs : List (Str × List (Str × Str))) (ks : List Str) :
    ∀ inp : Str, (specRun cfgs inp ks).map StepResult.key = ks := by
  induction ks with
  | nil => intro inp; simp [specRun]
  | cons k ks ih => intro inp; simp [specRun, ih]

theorem prevOutput_cons (inp : Str) (e : StepResult) (rest : List StepResult)
    (j : Nat) (hj : j < rest.length) :
    prevOutput inp (e :: rest) (j + 1) = prevOutput e.output rest j := by
  cases j with
  | zero => simp [prevOutput]
  | succ j' =>
    have hj' : j' < rest.length := Nat.lt_of_succ_lt hj
    have ⟨a, ha⟩ : ∃ a, rest[j']? = some a := ⟨rest[j'], List.getElem?_eq_getElem hj'⟩
    simp [prevOutput, List.get?_cons_succ, ha]

theorem specRun_get? (cfgs : List (Str × List (Str × Str))) (ks : List Str) :
    ∀ (inp : Str) (i : Nat) (r : StepResult),
      (specRun cfgs inp ks).get? i = some r →
      r.result = applyTransform r.key (prevOutput inp (specRun cfgs inp ks) i)
          ((alGet cfgs r.key).getD [])
      ∧ r.output = r.result.getD (prevOutput inp (specRun cfgs inp ks) i) := by
  induction ks with
  | nil => intro inp i r h; simp [specRun] at h
  | cons k ks ih =>
    intro inp i r h
    rw [specRun_cons] at h ⊢
    cases i with
    | zero =>
      rw [List.get?_cons_zero] at h
      injection h with h
      subst h
      exact ⟨rfl, rfl⟩
    | succ j =>
      rw [List.get?_cons_succ] at h
      have hj : j < (specRun cfgs
          ((applyTransform k inp ((alGet cfgs k).getD [])).getD inp) ks).length :=
        (List.get?_eq_some.mp h).1
      rw [prevOutput_cons _ _ _ _ hj]
      exact ih _ j r h

/-- C1 (amended): for every raw order parameter whose comma segments
surviving the in-operator filter are registered transform keys each
occurring at most once — in particular the raw neither repeats a known key
nor contains an Object.prototype property name such as toString, which the
source's membership test lets through — parseOrder returns a permutation of
ALL_KEYS: same length, no duplicates, same set of keys (the absent and empty
cases included).  A repeated known key is kept twice and a prototype
property name survives the filter, so the result is then not a permutation
(see the counterexample). -/
theorem parseOrder_total (p : Option Str)
    (h : ∀ s, p = some s → ((splitComma s).filter isKnown).Nodup
        ∧ ∀ k ∈ (splitComma s).filter isKnown, k ∈ ALL_KEYS) :
    (parseOrder p).length = ALL_KEYS.length
    ∧ (parseOrder p).Nodup
    ∧ (∀ k, k ∈ parseOrder p ↔ k ∈ ALL_KEYS) := by
  have hA : ALL_KEYS.Nodup := by decide
  cases p with
  | none => exact ⟨rfl, hA, fun k => Iff.rfl⟩
  | some s =>
    by_cases hs : s = []
    · subst hs
      exact ⟨rfl, hA, fun k => Iff.rfl⟩
    · have hred : parseOrder (some s)
          = (splitComma s).filter isKnown
            ++ ALL_KEYS.filter (fun k => decide (k ∉ (splitComma s).filter isKnown)) := by
        simp [parseOrder, hs]
      obtain ⟨hk, hsub⟩ := h s rfl
      have hperm := perm_complete ALL_KEYS ((splitComma s).filter isKnown) hA hk hsub
      rw [hred]
      exact ⟨hperm.length_eq, hperm.nodup_iff.mpr hA, fun k => hperm.mem_iff⟩

/-- C1 witness: a raw order naming one registered key once satisfies the
hypothesis, and the decoded order is a permutation of ALL_KEYS. -/
theorem parseOrder_total_witness :
    (parseOrder (some "hostnameReplace".data)).length = ALL_KEYS.length
    ∧ (parseOrder (some "hostnameReplace".data)).Nodup
    ∧ (∀ k, k ∈ parseOrder (some "hostnameReplace".data) ↔ k ∈ ALL_KEYS) :=
  parseOrder_total (some "hostnameReplace".data)
    (by intro s hs; injection hs with hh; subst hh; exact ⟨by decide, by decide⟩)

/-- C1 counterexample: a raw order repeating a known key decodes to a list
longer than ALL_KEYS (the later duplicate is not dropped), and the
Object.prototype property name toString passes the source's in-operator
test, so it survives into the decoded order although it is not a key of
ALL_KEYS — in both cases parseOrder does not return a permutation of
ALL_KEYS. -/
theorem parseOrder_dup_not_perm :
    (parseOrder (some "stripAwsTracking,stripAwsTracking".data)).length
      ≠ ALL_KEYS.length
    ∧ "toString".data ∈ parseOrder (some "toString".data)
    ∧ "toString".data ∉ ALL_KEYS := by decide

/-- C3 counterexample: the source's set membership test k in TRANSFORM_MAP
is true for Object.prototype property names, so the raw token toString
survives into the decoded active set although it is not a transform key —
the decoded set is not always a subset of ALL_KEYS. -/
theorem parseActive_prototype_leak :
    "toString".data ∈ parseActive (some "toString".data)
    ∧ "toString".data ∉ ALL_KEYS := by decide

/-- C3 (amended): for every raw active parameter the decoded set is
duplicate-free and a subset of the names accepted by the source's in test —
the registered keys of ALL_KEYS together with the property names inherited
from Object.prototype — and an absent raw yields the empty set.  Tokens
outside that union are dropped; a token such as toString is kept even though
it is not a registered key. -/
theorem parseActive_spec (p : Option Str) :
    (parseActive p).Nodup
    ∧ (∀ k, k ∈ parseActive p → k ∈ ALL_KEYS ∨ k ∈ OBJECT_PROTOTYPE_KEYS)
    ∧ parseActive none = [] := by
  refine ⟨?_, ?_, rfl⟩
  · cases p with
    | none => simp [parseActive]
    | some s =>
      by_cases hs : s = []
      · simp [parseActive, hs]
      · simp only [parseActive, hs, if_neg]
        exact nodup_foldl_insertUniq _ [] List.nodup_nil
  · intro k hk
    cases p with
    | none => simp [parseActive] at hk
    | some s =>
      by_cases hs : s = []
      · simp [parseActive, hs] at hk
      · simp only [parseActive, hs, if_neg] at hk
        rcases (mem_foldl_insertUniq _ [] k).mp hk with h | h
        · simp at h
        · have hknown := (List.mem_filter.mp h).2
          unfold isKnown at hknown
          simp only [Bool.or_eq_true, decide_eq_true_eq] at hknown
          exact hknown

/-- C3 witness: a raw with a dropped token and a repeated known key decodes
to a duplicate-free set, and its member passes the in test. -/
theorem parseActive_spec_witness :
    (parseActive (some "stripAwsTracking,bogus,stripAwsTracking".data)).Nodup
    ∧ ("stripAwsTracking".data ∈ ALL_KEYS
        ∨ "stripAwsTracking".data ∈ OBJECT_PROTOTYPE_KEYS) :=
  ⟨(parseActive_spec (some "stripAwsTracking,bogus,stripAwsTracking".data)).1,
    (parseActive_spec (some "stripAwsTracking,bogus,stripAwsTracking".data)).2.1
      "stripAwsTracking".data (by decide)⟩

/-- C10: the stripAwsTracking transform ignores its config argument: any two
config mappings give the same result on every input. -/
theorem stripAws_config_independent (url : Str) (c₁ c₂ : List (Str × Str)) :
    stripAwsTracking_fn url c₁ = stripAwsTracking_fn url c₂ := rfl

theorem getCfg_parseConfigs_record (ps : Params) (n v k f : Str)
    (hn : splitFirstDot n = some (k, f)) (hk : isKnown k = true) :
    getCfg (parseConfigs (ps ++ [(n, v)])) k f = some v := by
  rw [parseConfigs_append]
  unfold configStep getCfg
  rw [hn]
  simp only
  rw [if_pos hk, alGet_alSet_self]
  show alGet (alSet ((alGet (parseConfigs ps) k).getD []) f v) f = some v
  exact alGet_alSet_self _ _ _

theorem parseConfigs_skip_of_no_dot (ps : Params) (n v : Str)
    (h : splitFirstDot n = none) :
    parseConfigs (ps ++ [(n, v)]) = parseConfigs ps := by
  rw [parseConfigs_append]
  unfold configStep
  rw [h]

theorem parseConfigs_skip_of_unknown (ps : Params) (n v k f : Str)
    (hn : splitFirstDot n = some (k, f)) (hk : isKnown k = false) :
    parseConfigs (ps ++ [(n, v)]) = parseConfigs ps := by
  rw [parseConfigs_append]
  unfold configStep
  rw [hn]
  simp only
  rw [if_neg (by simp [hk])]

/-- C4 counterexample: the parameter toString.x=1 passes the source's
key in TRANSFORM_MAP test through the prototype chain, so its value is
recorded under the prefix toString although toString is not a transform
key — a non-transform-key prefix does appear in the decoded mapping. -/
theorem parseConfigs_prototype_recorded :
    getCfg (parseConfigs [("toString.x".data, "1".data)]) "toString".data "x".data
      = some "1".data
    ∧ "toString".data ∉ ALL_KEYS := by decide

/-- C4 (amended): parseConfigs ignores every parameter whose name contains no
dot, splits every other name at the first dot into (key, field), and records
configs[key][field] = value exactly when key passes the source's in test —
that is, when it is a registered transform key or a property name inherited
from Object.prototype, such as toString; a prefix that is neither, such as
foo, is ignored entirely and never appears in the decoded mapping, whose
keys all pass the in test. -/
theorem parseConfigs_spec (ps : Params) (n v k f : Str) :
    ('.' ∉ n → parseConfigs (ps ++ [(n, v)]) = parseConfigs ps)
    ∧ (splitFirstDot n = some (k, f) → k ∉ ALL_KEYS → k ∉ OBJECT_PROTOTYPE_KEYS →
        parseConfigs (ps ++ [(n, v)]) = parseConfigs ps)
    ∧ (splitFirstDot n = some (k, f) → isKnown k = true →
        getCfg (parseConfigs (ps ++ [(n, v)])) k f = some v)
    ∧ (∀ k', (alGet (parseConfigs ps) k').isSome = true →
        k' ∈ ALL_KEYS ∨ k' ∈ OBJECT_PROTOTYPE_KEYS) := by
  refine ⟨?_, ?_, ?_, ?_⟩
  · intro h
    exact parseConfigs_skip_of_no_dot ps n v ((splitFirstDot_eq_none n).mpr h)
  · intro hn h₁ h₂
    apply parseConfigs_skip_of_unknown ps n v k f hn
    unfold isKnown
    simp [h₁, h₂]
  · exact getCfg_parseConfigs_record ps n v k f
  · intro k' h'
    have hknown := parseConfigs_keys_known ps k' h'
    unfold isKnown at hknown
    simp only [Bool.or_eq_true, decide_eq_true_eq] at hknown
    exact hknown

/-- C4 witness: a dotless parameter and a foo-prefixed parameter are
ignored, while a parameter prefixed by a registered key is recorded. -/
theorem parseConfigs_spec_witness :
    parseConfigs ([("u".data, "zz".data)] ++ [("u".data, "zz".data)])
        = parseConfigs [("u".data, "zz".data)]
    ∧ parseConfigs ([] ++ [("foo.bar".data, "baz".data)]) = parseConfigs []
    ∧ getCfg (parseConfigs ([("u".data, "zz".data)] ++ [("hostnameReplace.to".data, "x".data)]))
        "hostnameReplace".data "to".data = some "x".data :=
  ⟨(parseConfigs_spec [("u".data, "zz".data)] "u".data "zz".data [] []).1 (by decide),
    (parseConfigs_spec [] "foo.bar".data "baz".data "foo".data "bar".data).2.1
      (by decide) (by decide) (by decide),
    (parseConfigs_spec [("u".data, "zz".data)] "hostnameReplace.to".data "x".data
      "hostnameReplace".data "to".data).2.2.1 (by decide) (by decide)⟩

/-- C9: when several parameters decode to the same known (key, field) pair,
the one latest in entry order wins: appending such an entry overwrites the
recorded value for that field while every other field of the same key keeps
its previous value. -/
theorem parseConfigs_last_wins (ps : Params) (n v k f : Str)
    (hn : splitFirstDot n = some (k, f)) (hk : isKnown k = true) :
    getCfg (parseConfigs (ps ++ [(n, v)])) k f = some v
    ∧ (∀ f', f' ≠ f →
        getCfg (parseConfigs (ps ++ [(n, v)])) k f' = getCfg (parseConfigs ps) k f') := by
  refine ⟨getCfg_parseConfigs_record ps n v k f hn hk, ?_⟩
  intro f' hf
  rw [parseConfigs_append]
  unfold configStep getCfg
  rw [hn]
  simp only
  rw [if_pos hk, alGet_alSet_self]
  show alGet (alSet ((alGet (parseConfigs ps) k).getD []) f v) f'
      = match alGet (parseConfigs ps) k with | none => none | some m => alGet m f'
  rw [alGet_alSet_ne _ _ _ _ hf]
  cases h : alGet (parseConfigs ps) k with
  | none => simp [alGet]
  | some m => simp

/-- C9 witness: two entries for the same known (key, field): the later value
is recorded and a different field of the same key is unchanged. -/
theorem parseConfigs_last_wins_witness :
    getCfg (parseConfigs ([("hostnameReplace.to".data, "a".data)]
        ++ [("hostnameReplace.to".data, "b".data)]))
      "hostnameReplace".data "to".data = some "b".data
    ∧ getCfg (parseConfigs ([("hostnameReplace.to".data, "a".data)]
        ++ [("hostnameReplace.to".data, "b".data)]))
      "hostnameReplace".data "x5".data
      = getCfg (parseConfigs [("hostnameReplace.to".data, "a".data)])
          "hostnameReplace".data "x5".data :=
  ⟨(parseConfigs_last_wins [("hostnameReplace.to".data, "a".data)]
      "hostnameReplace.to".data "b".data "hostnameReplace".data "to".data
      (by decide) (by decide)).1,
    (parseConfigs_last_wins [("hostnameReplace.to".data, "a".data)]
      "hostnameReplace.to".data "b".data "hostnameReplace".data "to".data
      (by decide) (by decide)).2 "x5".data (by decide)⟩

/-- C5 counterexample: a key.field parameter carrying the empty string as its
value is recorded by parseConfigs, so the decoded configs differ from those
of the mapping with the parameter removed. -/
theorem parseConfigs_empty_value_recorded :
    parseConfigs [("hostnameReplace.to".data, [])] ≠ parseConfigs [] := by decide

/-- C5 (amended): empty and absent raw values are equivalent for parseOrder
and parseActive; parseConfigs however records an empty-string config value
like any other value, so the entry stays present in the decoded mapping
rather than disappearing. -/
theorem empty_equals_absent (ps : Params) (n k f : Str) :
    parseOrder none = parseOrder (some [])
    ∧ parseActive none = parseActive (some [])
    ∧ (splitFirstDot n = some (k, f) → isKnown k = true →
        getCfg (parseConfigs (ps ++ [(n, [])])) k f = some []) :=
  ⟨rfl, rfl, getCfg_parseConfigs_record ps n [] k f⟩

/-- C5 witness: the empty-valued hostnameReplace.to parameter stays recorded
with the empty value. -/
theorem empty_equals_absent_witness :
    getCfg (parseConfigs ([] ++ [("hostnameReplace.to".data, [])]))
      "hostnameReplace".data "to".data = some [] :=
  (empty_equals_absent [] "hostnameReplace.to".data
    "hostnameReplace".data "to".data).2.2 (by decide) (by decide)

/-- C2: the executor runs exactly the active keys in order-relative sequence
as a left fold from the base input (it refines the fold specRun written from
the spec's words); every step's result is its transform applied to the
previous step's output (the base input for step 0), its output is that
result or, when the result is null, the unchanged previous output which the
next step then receives; the final output is the last step's output, or the
base input when no step ran. -/
theorem transformResults_correct (st : PipelineState) :
    transformResults st
        = specRun st.configs st.input (st.order.filter (fun k => decide (k ∈ st.active)))
    ∧ (transformResults st).map StepResult.key
        = st.order.filter (fun k => decide (k ∈ st.active))
    ∧ (∀ i r, (transformResults st).get? i = some r →
        r.result = applyTransform r.key (prevOutput st.input (transformResults st) i)
            ((alGet st.configs r.key).getD [])
        ∧ r.output = r.result.getD (prevOutput st.input (transformResults st) i))
    ∧ (transformResults st = [] → finalOutput st = st.input)
    ∧ (∀ r, (transformResults st).getLast? = some r → finalOutput st = r.output) := by
  have h1 : transformResults st
      = specRun st.configs st.input (st.order.filter (fun k => decide (k ∈ st.active))) := by
    unfold transformResults
    rw [foldl_stepFold_eq]
    rfl
  refine ⟨h1, ?_, ?_, ?_, ?_⟩
  · rw [h1]
    exact specRun_map_key _ _ _
  · intro i r h
    rw [h1] at h ⊢
    exact specRun_get? _ _ _ i r h
  · intro h
    unfold finalOutput
    rw [h]
    rfl
  · intro r h
    unfold finalOutput
    rw [h]

/-- C2 witness: with only hostnameReplace active and no config, the single
step does not apply and the final output equals the base input. -/
theorem transformResults_correct_witness :
    finalOutput ⟨"u".data, ALL_KEYS, ["hostnameReplace".data], []⟩ = "u".data := by
  have h := (transformResults_correct
      ⟨"u".data, ALL_KEYS, ["hostnameReplace".data], []⟩).2.2.2.2
      ⟨"hostnameReplace".data, none, "u".data⟩ (by decide)
  exact h

/-- C6 (amended): setConfig writes the key.field parameter exactly when the
value is non-empty and deletes it otherwise; toggle omits the active
parameter exactly when the toggled set is empty; move leaves the mapping
unchanged when the swap target is out of bounds but, contrary to the claim,
always writes the order parameter for an in-bounds move, even when the
resulting order equals the default registration ordering (see the
counterexample). -/
theorem encoders_minimality (key field value : Str) (prev : Params) (sel : List Str)
    (k₂ k₃ : Str) (order : List Str) (dir : Int) (idx : Nat) :
    (value ≠ [] → alGet (setConfig key field value prev) (key ++ '.' :: field) = some value)
    ∧ (value = [] → alGet (setConfig key field value prev) (key ++ '.' :: field) = none)
    ∧ (alGet (toggle sel k₂ prev) "active".data = none ↔ toggleNext sel k₂ = [])
    ∧ (idxOf order k₃ = some idx →
        ¬((idx : Int) + dir < 0 ∨ (order.length : Int) ≤ (idx : Int) + dir) →
        alGet (move order k₃ dir prev) "order".data
          = some (joinComma (listSwap order idx ((idx : Int) + dir).toNat)))
    ∧ (idxOf order k₃ = some idx →
        ((idx : Int) + dir < 0 ∨ (order.length : Int) ≤ (idx : Int) + dir) →
        move order k₃ dir prev = prev) := by
  refine ⟨?_, ?_, ?_, ?_, ?_⟩
  · intro hv
    unfold setConfig
    rw [if_neg hv]
    exact alGet_paramsSet_self _ _ _
  · intro hv
    unfold setConfig
    rw [if_pos hv]
    exact alGet_paramsDelete_self _ _
  · unfold toggle
    by_cases h : toggleNext sel k₂ = []
    · rw [if_pos h]
      simp [alGet_paramsDelete_self, h]
    · rw [if_neg h]
      simp [alGet_paramsSet_self, h]
  · intro hidx hb
    unfold move
    rw [hidx]
    simp only
    rw [if_neg hb]
    exact alGet_paramsSet_self _ _ _
  · intro hidx hb
    unfold move
    rw [hidx]
    simp only
    rw [if_pos hb]

/-- C6 witness: a non-empty setConfig value is written under key.field, and
an in-bounds move writes the swapped order. -/
theorem encoders_minimality_witness :
    alGet (setConfig "hostnameReplace".data "to".data "x".data [])
        ("hostnameReplace".data ++ '.' :: "to".data) = some "x".data
    ∧ alGet (move ALL_KEYS "stripAwsTracking".data 1 []) "order".data
        = some (joinComma (listSwap ALL_KEYS 0 ((0 : Int) + 1).toNat)) := by
  have h := encoders_minimality "hostnameReplace".data "to".data "x".data [] []
      "x".data "stripAwsTracking".data ALL_KEYS 1 0
  exact ⟨h.1 (by decide), h.2.2.2.1 (by decide) (by decide)⟩

/-- C6 counterexample: moving stripAwsTracking up from second place produces
exactly the default registration ordering, yet move writes the order
parameter, which the claim requires to be omitted when the resulting order
equals the default. -/
theorem move_writes_default_order :
    alGet (move ["hostnameReplace".data, "stripAwsTracking".data]
        "stripAwsTracking".data (-1) []) "order".data
      = some (joinComma (parseOrder none)) := by decide

theorem hostnameReplace_none_of_empty (url : Str) (cfg : List (Str × Str))
    (h : alGet cfg "to".data = none ∨ alGet cfg "to".data = some []) :
    hostnameReplace_fn url cfg = none := by
  unfold hostnameReplace_fn
  rcases h with h | h <;> simp [h]

/-- C7: hostnameReplace returns null when the config field to is absent or
empty (and then a pipeline whose only active step is hostnameReplace outputs
the unmodified input), returns null when the input does not parse as an
absolute URL, and otherwise returns the URL re-serialized with only the
hostname replaced, scheme, port, path, query and fragment preserved
verbatim. -/
theorem hostnameReplace_spec (url : Str) (cfg : List (Str × Str)) :
    ((alGet cfg "to".data = none ∨ alGet cfg "to".data = some []) →
        hostnameReplace_fn url cfg = none)
    ∧ (parseURL url = none → hostnameReplace_fn url cfg = none)
    ∧ (∀ t u, alGet cfg "to".data = some t → t ≠ [] → parseURL url = some u →
        hostnameReplace_fn url cfg
          = some (urlToString ⟨u.scheme, t, u.port, u.path, u.query, u.fragment⟩))
    ∧ (∀ st : PipelineState,
        st.order.filter (fun k => decide (k ∈ st.active)) = ["hostnameReplace".data] →
        (alGet ((alGet st.configs "hostnameReplace".data).getD []) "to".data = none
          ∨ alGet ((alGet st.configs "hostnameReplace".data).getD []) "to".data = some []) →
        finalOutput st = st.input) := by
  refine ⟨hostnameReplace_none_of_empty url cfg, ?_, ?_, ?_⟩
  · intro hp
    unfold hostnameReplace_fn
    cases h : alGet cfg "to".data with
    | none => rfl
    | some t =>
      by_cases ht : t = []
      · simp [ht]
      · simp [ht, hp]
  · intro t u ht hne hp
    unfold hostnameReplace_fn
    rw [ht]
    simp only
    rw [if_neg hne, hp]
  · intro st hfil hcfg
    have hrun : transformResults st = [⟨"hostnameReplace".data,
        hostnameReplace_fn st.input ((alGet st.configs "hostnameReplace".data).getD []),
        (hostnameReplace_fn st.input
          ((alGet st.configs "hostnameReplace".data).getD [])).getD st.input⟩] := by
      unfold transformResults
      rw [hfil]
      rfl
    have hnone := hostnameReplace_none_of_empty st.input
      ((alGet st.configs "hostnameReplace".data).getD []) hcfg
    unfold finalOutput
    rw [hrun, hnone]
    rfl

/-- C7 witness: a URL with port, path, query and fragment has only its
hostname replaced, every other component preserved verbatim. -/
theorem hostnameReplace_spec_witness :
    hostnameReplace_fn "http://a.b:8080/p?q#f".data [("to".data, "c.d".data)]
      = some (urlToString ⟨"http".data, "c.d".data, "8080".data, "/p".data,
          some "q".data, some "f".data⟩) :=
  (hostnameReplace_spec "http://a.b:8080/p?q#f".data [("to".data, "c.d".data)]).2.2.1
    "c.d".data
    ⟨"http".data, "a.b".data, "8080".data, "/p".data, some "q".data, some "f".data⟩
    (by decide) (by decide) (by decide)

/-- C8: both reference transforms are total, returning none or some string on
every input, and every exceptional path of the underlying operations is
caught and mapped to null: a failing percent-decode of the matched segment
yields null, and a failing URL parse yields null, so no error escapes a
transform into the pipeline. -/
theorem transforms_total (url : Str) (cfg : List (Str × Str)) (seg t : Str) :
    (stripAwsTracking_fn url cfg = none ∨ ∃ s, stripAwsTracking_fn url cfg = some s)
    ∧ (hostnameReplace_fn url cfg = none ∨ ∃ s, hostnameReplace_fn url cfg = some s)
    ∧ (stripAwsMatch url = some seg → percentDecode seg = Except.error () →
        stripAwsTracking_fn url cfg = none)
    ∧ (alGet cfg "to".data = some t → parseURL url = none →
        hostnameReplace_fn url cfg = none) := by
  refine ⟨?_, ?_, ?_, ?_⟩
  · cases h : stripAwsTracking_fn url cfg with
    | none => exact Or.inl rfl
    | some s => exact Or.inr ⟨s, rfl⟩
  · cases h : hostnameReplace_fn url cfg with
    | none => exact Or.inl rfl
    | some s => exact Or.inr ⟨s, rfl⟩
  · intro hm hd
    unfold stripAwsTracking_fn
    rw [hm]
    show (match percentDecode seg with
          | Except.error _ => none
          | Except.ok s => some s) = none
    rw [hd]
  · intro ht hp
    unfold hostnameReplace_fn
    rw [ht]
    simp only
    by_cases h : t = []
    · rw [if_pos h]
    · rw [if_neg h, hp]

/-- C8 witness: an invalid percent escape after the tracking marker and an
unparsable URL each produce null, not an error. -/
theorem transforms_total_witness :
    stripAwsTracking_fn "/L0/%zz".data [] = none
    ∧ hostnameReplace_fn "nota url".data [("to".data, "x".data)] = none :=
  ⟨(transforms_total "/L0/%zz".data [] "%zz".data "x".data).2.2.1 (by decide) rfl,
    (transforms_total "nota url".data [("to".data, "x".data)] [] "x".data).2.2.2
      (by decide) (by decide)⟩

end UrlTool
